import Mathlib

/-!
Verification of the chunk-planning / fetch / write / verify pipeline of the
`mini_downloader` crate (files `src/chunks.rs`, `src/chunk.rs`,
`src/chunk_vec.rs`).

The Rust code is shallowly embedded: `usize` becomes `Nat` (with explicit
checked operations where the Rust arithmetic can panic), `bytes::Bytes`
becomes `List Nat`, `anyhow::Result` becomes `Except String`, and the file
on disk becomes a `List Nat` of bytes with POSIX seek/write semantics
(zero fill between the old end of file and the write offset).
-/

/-- The payload of one HTTP byte-range response: a sequence of bytes.
Embeds `bytes::Bytes`. -/
abbrev Bytes := List Nat

/-- `Chunk` from `src/chunks.rs` / `src/chunk.rs`: a byte range of the
resource plus (once fetched) the bytes themselves.
Rust: `pub struct Chunk { data: bytes::Bytes, start: usize, chunk_size: usize }`. -/
structure Chunk where
  data : Bytes
  start : Nat
  chunk_size : Nat
deriving DecidableEq, Repr

/-- `Chunks` from `src/chunks.rs`: the chunk plan / iterator state.
Rust: `pub struct Chunks { start: usize, total: usize, chunk_size: usize }`. -/
structure Chunks where
  start : Nat
  total : Nat
  chunk_size : Nat
deriving DecidableEq, Repr

/-- Checked division, embedding Rust `usize` division, which panics
(`none`) when the divisor is zero. -/
def checkedDiv (a b : Nat) : Option Nat :=
  if b = 0 then none else some (a / b)

/-- Checked subtraction, embedding Rust `usize` subtraction, which panics
(`none`) on underflow. -/
def checkedSub (a b : Nat) : Option Nat :=
  if a < b then none else some (a - b)

/-- The planning part of `Chunks::new` (`src/chunks.rs`, lines 31-51), as a
function of the probe results `(accept_ranges, total)` and the worker
count.  Rust:
`if !accept_ranges || total < 1024 * 1024 * 4 { Self { start: 0, total, chunk_size: total } }
 else { let chunk_size = total / workers + 1; Self { start: 0, total, chunk_size } }`.
The division is checked: `total / workers` panics when `workers == 0`. -/
def Chunks.new (accept_ranges : Bool) (total workers : Nat) : Option Chunks :=
  if !accept_ranges || total < 1024 * 1024 * 4 then
    some { start := 0, total := total, chunk_size := total }
  else
    (checkedDiv total workers).map fun q =>
      { start := 0, total := total, chunk_size := q + 1 }

/-- `<Chunks as Iterator>::next` (`src/chunks.rs`, lines 153-169).  The Rust
method mutates `self`; here it returns the yielded chunk together with the
updated state.  Rust:
`if self.start >= self.total { return None; }
 let size = self.chunk_size.min(self.total - self.start);
 let chunk = Chunk { data: Bytes::new(), start: self.start, chunk_size: size };
 self.start += size; Some(chunk)`. -/
def Chunks.next (s : Chunks) : Option (Chunk × Chunks) :=
  if s.start ≥ s.total then none
  else
    let size := min s.chunk_size (s.total - s.start)
    some ({ data := [], start := s.start, chunk_size := size },
          { start := s.start + size, total := s.total, chunk_size := s.chunk_size })

/-- Exhausting the `Chunks` iterator, fuel-bounded so that the extraction is
structurally recursive.  `chunksFuel_stable` below shows that any fuel of at
least `total` steps reaches the iterator's `None`, so the bound loses
nothing on the states the program builds. -/
def chunksFuel : Nat → Chunks → List Chunk
  | 0, _ => []
  | fuel + 1, s =>
    match s.next with
    | none => []
    | some (c, s') => c :: chunksFuel fuel s'

/-- The full descriptor sequence of a plan: the iterator exhausted
(`for chunk in self` in `src/chunks.rs`). -/
def chunksList (s : Chunks) : List Chunk :=
  chunksFuel s.total s

/-- `Chunk::download` (`src/chunk.rs`, lines 74-97) as a function of the
response body: the fetched bytes are stored in `data`, then
`if self.data.len() != self.chunk_size { bail!(...) }`.  The network request
itself (range-bounded GET) is the transport collaborator; its result is the
`body` argument. -/
def Chunk.download (c : Chunk) (body : Bytes) : Except String Chunk :=
  let c' : Chunk := { c with data := body }
  if c'.data.length ≠ c.chunk_size then
    Except.error "size mismatch"
  else
    Except.ok c'

/-- The end bound `self.start + self.chunk_size - 1` of the inclusive Range
header `bytes={start}-{end}` built in `Chunk::download` (`src/chunk.rs`,
line 83); the `usize` subtraction panics when `start + chunk_size == 0`. -/
def Chunk.rangeHeaderEnd (c : Chunk) : Option Nat :=
  checkedSub (c.start + c.chunk_size) 1

/-- Writing `data` at byte offset `pos` of file `f`: seek + `write_all`
with POSIX semantics.  Bytes in `[pos, pos + data.length)` come from
`data`, all others keep their old value, a gap between the old end of file
and `pos` reads back as zeros, and the file length grows to
`max f.length (pos + data.length)`. -/
def writeAt (f : List Nat) (pos : Nat) (data : Bytes) : List Nat :=
  (List.range (max f.length (pos + data.length))).map fun i =>
    if pos ≤ i ∧ i < pos + data.length then data.getD (i - pos) 0 else f.getD i 0

/-- `Chunk::save` (`src/chunk.rs`, lines 100-106): seek to `self.start`,
write the payload.  Argument order fits `List.foldl`. -/
def writeChunk (f : List Nat) (c : Chunk) : List Nat :=
  writeAt f c.start c.data

/-- `Chunks::verify` (`src/chunks.rs`, lines 121-130) as a function of the
synced on-disk file size:
`if size != self.total { bail!("Expected {} bytes, got {}", ...) }`. -/
def Chunks.verify (s : Chunks) (file_size : Nat) : Except String Unit :=
  if file_size ≠ s.total then Except.error "size mismatch" else Except.ok ()

/-- `ChunkVec` from `src/chunk_vec.rs`: the fetched chunks of one resource
plus the expected total size. -/
structure ChunkVec where
  chunks : List Chunk
  total : Nat
deriving DecidableEq, Repr

/-- The `for chunk in self.chunks.windows(2)` loop of `ChunkVec::verify`
(`src/chunk_vec.rs`, lines 56-62): bail on the first adjacent pair with
`c1.start + c1.chunk_size != c2.start`. -/
def windowsCheck : List Chunk → Except String Unit
  | c1 :: c2 :: rest =>
    if c1.start + c1.chunk_size ≠ c2.start then Except.error "Incomplete chunk"
    else windowsCheck (c2 :: rest)
  | _ => Except.ok ()

/-- `ChunkVec::verify` (`src/chunk_vec.rs`, lines 40-64).  Sorts the chunks
by `start` (`sort_by_key`), computes the Rust `flag` expression literally —
`if let Some(first) = chunks.first() { first.start == 0 }
 else if let Some(last) = chunks.last() { last.start + last.chunk_size == total }
 else { false }` —
bails when `flag` holds, then runs the adjacent-pair check. -/
def ChunkVec.verify (cv : ChunkVec) : Except String Unit :=
  let sorted := List.insertionSort (fun a b : Chunk => a.start ≤ b.start) cv.chunks
  let flag :=
    match sorted.head? with
    | some first => first.start == 0
    | none =>
      match sorted.getLast? with
      | some last => last.start + last.chunk_size == cv.total
      | none => false
  if flag then Except.error "Incomplete chunk"
  else windowsCheck sorted

/-- `ChunkVec::verify` with the dead `else if let Some(last)` branch
replaced by `false`; compared with `ChunkVec.verify` to show the last-chunk
end check is never consulted. -/
def ChunkVec.verifyNoLastCheck (cv : ChunkVec) : Except String Unit :=
  let sorted := List.insertionSort (fun a b : Chunk => a.start ≤ b.start) cv.chunks
  let flag :=
    match sorted.head? with
    | some first => first.start == 0
    | none => false
  if flag then Except.error "Incomplete chunk"
  else windowsCheck sorted

/-- Rust `str::parse::<usize>`: an optional leading `+`, then one or more
ASCII digits and nothing else; values of `2^64` or more overflow `usize`
and fail.  (A header value that is not visible ASCII fails `to_str` in the
Rust code; such a string also fails the digit test here.) -/
def parseUsize (s : String) : Option Nat :=
  let chars :=
    match s.data with
    | '+' :: rest => rest
    | cs => cs
  if chars ≠ [] ∧ chars.all Char.isDigit then
    let v := chars.foldl (fun acc c => acc * 10 + (c.toNat - 48)) 0
    if v < 2 ^ 64 then some v else none
  else none

/-- `Chunks::get_content_length` (`src/chunks.rs`, lines 132-150) as a
function of the two response headers.  Rust:
`accept_ranges = headers.get(ACCEPT_RANGES).map(|v| v == "bytes").unwrap_or(false)`;
`total = headers.get(CONTENT_LENGTH).map_or(0, |v| v.to_str().ok().and_then(|v| v.parse::<usize>().ok()).unwrap_or(0))`. -/
def Chunks.get_content_length (accept_ranges_header content_length_header : Option String) :
    Bool × Nat :=
  let accept_ranges :=
    match accept_ranges_header with
    | some v => v == "bytes"
    | none => false
  let total :=
    match content_length_header with
    | some v => (parseUsize v).getD 0
    | none => 0
  (accept_ranges, total)

/-- Byte ranges `[start, start + chunk_size)` of two chunks are disjoint. -/
def rangesDisjoint (c1 c2 : Chunk) : Prop :=
  c1.start + c1.chunk_size ≤ c2.start ∨ c2.start + c2.chunk_size ≤ c1.start

instance (c1 c2 : Chunk) : Decidable (rangesDisjoint c1 c2) := by
  unfold rangesDisjoint
  infer_instance

instance : IsTotal Chunk (fun a b : Chunk => a.start ≤ b.start) :=
  ⟨fun a b => Nat.le_total a.start b.start⟩

instance : IsTrans Chunk (fun a b : Chunk => a.start ≤ b.start) :=
  ⟨fun _ _ _ h1 h2 => Nat.le_trans h1 h2⟩

instance : IsTrans Chunk (fun a b : Chunk => a.start + a.chunk_size ≤ b.start) :=
  ⟨fun _ b _ h1 h2 => Nat.le_trans h1 (Nat.le_trans (Nat.le_add_right b.start b.chunk_size) h2)⟩

theorem chunksFuel_nil (fuel : Nat) (s : Chunks) (h : s.total ≤ s.start) :
    chunksFuel fuel s = [] := by
  cases fuel with
  | zero => rfl
  | succ n => simp [chunksFuel, Chunks.next, h]

theorem Chunks.next_eq_some (s : Chunks) (h : s.start < s.total) :
    s.next = some
      ({ data := [], start := s.start, chunk_size := min s.chunk_size (s.total - s.start) },
       { start := s.start + min s.chunk_size (s.total - s.start), total := s.total,
         chunk_size := s.chunk_size }) := by
  unfold Chunks.next
  rw [if_neg (Nat.not_le.mpr h)]

theorem chunksFuel_succ (n start total csize : Nat) (h : start < total) :
    chunksFuel (n + 1) ⟨start, total, csize⟩ =
      { data := [], start := start, chunk_size := min csize (total - start) } ::
        chunksFuel n ⟨start + min csize (total - start), total, csize⟩ := by
  have hnext := Chunks.next_eq_some ⟨start, total, csize⟩ h
  simp only [chunksFuel, hnext]

theorem chunksFuel_props :
    ∀ (fuel start total csize : Nat), 1 ≤ csize → total - start ≤ fuel →
    ((chunksFuel fuel ⟨start, total, csize⟩).map Chunk.chunk_size).sum = total - start ∧
    (∀ c ∈ chunksFuel fuel ⟨start, total, csize⟩,
      1 ≤ c.chunk_size ∧ c.data = [] ∧ start ≤ c.start ∧ c.start + c.chunk_size ≤ total) ∧
    List.Chain' (fun a b : Chunk => a.start + a.chunk_size = b.start)
      (chunksFuel fuel ⟨start, total, csize⟩) ∧
    (∀ c ∈ (chunksFuel fuel ⟨start, total, csize⟩).head?, c.start = start) ∧
    (∀ c ∈ (chunksFuel fuel ⟨start, total, csize⟩).getLast?, c.start + c.chunk_size = total) ∧
    (start < total → chunksFuel fuel ⟨start, total, csize⟩ ≠ []) := by
  intro fuel
  induction fuel with
  | zero =>
    intro start total csize _ hf
    refine ⟨by simp [chunksFuel]; omega, by simp [chunksFuel], by simp [chunksFuel],
      by simp [chunksFuel], by simp [chunksFuel], fun hlt => absurd hlt (by omega)⟩
  | succ n ih =>
    intro start total csize hc hf
    by_cases hst : total ≤ start
    · rw [chunksFuel_nil _ _ hst]
      refine ⟨by simp; omega, by simp, by simp, by simp, by simp, fun hlt => by omega⟩
    · push_neg at hst
      have h1 : 1 ≤ min csize (total - start) := Nat.le_min.mpr ⟨hc, by omega⟩
      have h2 : min csize (total - start) ≤ total - start := Nat.min_le_right _ _
      rw [chunksFuel_succ n start total csize hst]
      obtain ⟨ihsum, ihall, ihchain, ihhead, ihlast, ihne⟩ :=
        ih (start + min csize (total - start)) total csize hc (by omega)
      refine ⟨?_, ?_, ?_, ?_, ?_, ?_⟩
      · simp only [List.map_cons, List.sum_cons, ihsum]
        omega
      · intro c hcmem
        rcases List.mem_cons.mp hcmem with rfl | hcmem
        · refine ⟨h1, rfl, Nat.le_refl _, ?_⟩
          show start + min csize (total - start) ≤ total
          omega
        · obtain ⟨p1, p2, p3, p4⟩ := ihall c hcmem
          exact ⟨p1, p2, by omega, p4⟩
      · refine List.chain'_cons'.mpr ⟨?_, ihchain⟩
        intro y hy
        have := ihhead y hy
        simp only at this ⊢
        omega
      · intro c hcmem
        simp only [List.head?_cons, Option.mem_def, Option.some.injEq] at hcmem
        subst hcmem
        rfl
      · by_cases htail : chunksFuel n ⟨start + min csize (total - start), total, csize⟩ = []
        · rw [htail]
          intro c hcmem
          simp only [List.getLast?_singleton, Option.mem_def, Option.some.injEq] at hcmem
          subst hcmem
          show start + min csize (total - start) = total
          by_cases hlt : start + min csize (total - start) < total
          · exact absurd htail (ihne hlt)
          · omega
        · obtain ⟨y, ys, hys⟩ := List.exists_cons_of_ne_nil htail
          rw [hys, List.getLast?_cons_cons]
          rw [hys] at ihlast
          exact ihlast
      · exact fun _ => List.cons_ne_nil _ _

theorem chunksFuel_stable :
    ∀ (fuel1 fuel2 start total csize : Nat), 1 ≤ csize →
    total - start ≤ fuel1 → total - start ≤ fuel2 →
    chunksFuel fuel1 ⟨start, total, csize⟩ = chunksFuel fuel2 ⟨start, total, csize⟩ := by
  intro fuel1
  induction fuel1 with
  | zero =>
    intro fuel2 start total csize _ h1 _
    rw [chunksFuel_nil 0 ⟨start, total, csize⟩ (show total ≤ start by omega),
      chunksFuel_nil fuel2 ⟨start, total, csize⟩ (show total ≤ start by omega)]
  | succ n ih =>
    intro fuel2 start total csize hc h1 h2
    by_cases hst : total ≤ start
    · rw [chunksFuel_nil _ _ hst, chunksFuel_nil _ _ hst]
    · push_neg at hst
      cases fuel2 with
      | zero => omega
      | succ m =>
        have h1' : 1 ≤ min csize (total - start) := Nat.le_min.mpr ⟨hc, by omega⟩
        rw [chunksFuel_succ n start total csize hst,
          chunksFuel_succ m start total csize hst]
        congr 1
        exact ih m (start + min csize (total - start)) total csize hc (by omega) (by omega)

theorem Chunks.new_shape (accept_ranges : Bool) (total workers : Nat) (hw : 1 ≤ workers)
    (s : Chunks) (hs : Chunks.new accept_ranges total workers = some s) :
    s.start = 0 ∧ s.total = total ∧ (1 ≤ total → 1 ≤ s.chunk_size) ∧
    ((accept_ranges = false ∨ total < 4194304) → s.chunk_size = total) ∧
    (accept_ranges = true → 4194304 ≤ total → s.chunk_size = total / workers + 1) := by
  unfold Chunks.new at hs
  by_cases hcond : (!accept_ranges || decide (total < 1024 * 1024 * 4)) = true
  · rw [if_pos hcond] at hs
    obtain rfl : ({ start := 0, total := total, chunk_size := total } : Chunks) = s :=
      Option.some_inj.mp hs
    simp only [Bool.or_eq_true, Bool.not_eq_true', decide_eq_true_eq] at hcond
    refine ⟨rfl, rfl, fun h => h, fun _ => rfl, fun har htot => ?_⟩
    rcases hcond with h | h
    · rw [har] at h
      exact absurd h (by simp)
    · omega
  · rw [if_neg hcond] at hs
    simp only [Bool.or_eq_true, Bool.not_eq_true', decide_eq_true_eq, not_or] at hcond
    obtain ⟨har, htot⟩ := hcond
    unfold checkedDiv at hs
    rw [if_neg (by omega)] at hs
    simp only [Option.map_some'] at hs
    obtain rfl : ({ start := 0, total := total, chunk_size := total / workers + 1 } : Chunks) = s :=
      Option.some_inj.mp hs
    refine ⟨rfl, rfl, fun _ => Nat.le_add_left 1 _, fun hor => ?_, fun _ _ => rfl⟩
    rcases hor with h | h
    · exact absurd h (by simpa using har)
    · omega

theorem chunksList_props (accept_ranges : Bool) (total workers : Nat) (hw : 1 ≤ workers)
    (s : Chunks) (hs : Chunks.new accept_ranges total workers = some s) :
    (∀ c ∈ (chunksList s).head?, c.start = 0) ∧
    List.Chain' (fun a b : Chunk => a.start + a.chunk_size = b.start) (chunksList s) ∧
    (∀ c ∈ (chunksList s).getLast?, c.start + c.chunk_size = total) ∧
    ((chunksList s).map Chunk.chunk_size).sum = total ∧
    (∀ c ∈ chunksList s, 1 ≤ c.chunk_size ∧ c.data = []) := by
  obtain ⟨hstart, htotal, hpos, _, _⟩ := Chunks.new_shape accept_ranges total workers hw s hs
  obtain ⟨st, tt, cs⟩ := s
  simp only at hstart htotal hpos
  subst hstart
  subst htotal
  by_cases htot : tt = 0
  · subst htot
    have hnil : chunksList ⟨0, 0, cs⟩ = [] := rfl
    rw [hnil]
    simp
  · have hc : 1 ≤ cs := hpos (by omega)
    obtain ⟨hsum, hall, hchain, hhead, hlast, _⟩ :=
      chunksFuel_props tt 0 tt cs hc (by omega)
    have hlist : chunksList ⟨0, tt, cs⟩ = chunksFuel tt ⟨0, tt, cs⟩ := rfl
    rw [hlist]
    refine ⟨hhead, hchain, hlast, by rw [hsum]; omega, fun c hcm => ?_⟩
    obtain ⟨p1, p2, _, _⟩ := hall c hcm
    exact ⟨p1, p2⟩

theorem length_writeAt (f : List Nat) (pos : Nat) (data : Bytes) :
    (writeAt f pos data).length = max f.length (pos + data.length) := by
  simp [writeAt]

theorem getD_writeAt (f : List Nat) (pos : Nat) (data : Bytes) (i : Nat) :
    (writeAt f pos data).getD i 0 =
      if pos ≤ i ∧ i < pos + data.length then data.getD (i - pos) 0 else f.getD i 0 := by
  by_cases hi : i < max f.length (pos + data.length)
  · have hlen : i < (writeAt f pos data).length := by rw [length_writeAt]; exact hi
    rw [List.getD_eq_getElem _ _ hlen]
    simp only [writeAt, List.getElem_map, List.getElem_range]
  · push_neg at hi
    have h1 : f.length ≤ i := le_trans (le_max_left _ _) hi
    have h2 : pos + data.length ≤ i := le_trans (le_max_right _ _) hi
    rw [List.getD_eq_default _ _ (by rw [length_writeAt]; omega),
      if_neg (by omega), List.getD_eq_default _ _ h1]

theorem list_eq_of_getD (l1 l2 : List Nat) (hlen : l1.length = l2.length)
    (h : ∀ i, l1.getD i 0 = l2.getD i 0) : l1 = l2 := by
  apply List.ext_getElem hlen
  intro i h1 h2
  have hi := h i
  rwa [List.getD_eq_getElem _ _ h1, List.getD_eq_getElem _ _ h2] at hi

theorem rangesDisjoint_symm {a b : Chunk} (h : rangesDisjoint a b) : rangesDisjoint b a :=
  Or.symm h

theorem writeChunk_comm (f : List Nat) (a b : Chunk)
    (ha : a.data.length = a.chunk_size) (hb : b.data.length = b.chunk_size)
    (hd : rangesDisjoint a b) :
    writeChunk (writeChunk f a) b = writeChunk (writeChunk f b) a := by
  have hd' : a.start + a.data.length ≤ b.start ∨ b.start + b.data.length ≤ a.start := by
    rw [ha, hb]; exact hd
  apply list_eq_of_getD
  · simp only [writeChunk, length_writeAt]
    rw [Nat.max_right_comm]
  · intro i
    simp only [writeChunk, getD_writeAt]
    rcases hd' with h | h <;> split_ifs <;> first | rfl | omega

theorem foldl_writeChunk_perm {l1 l2 : List Chunk} (hperm : l1.Perm l2) :
    (∀ c ∈ l1, c.data.length = c.chunk_size) → l1.Pairwise rangesDisjoint →
    ∀ f : List Nat, l1.foldl writeChunk f = l2.foldl writeChunk f := by
  induction hperm with
  | nil => intro _ _ _; rfl
  | cons x p ih =>
    intro hlen hdisj f
    simp only [List.foldl_cons]
    exact ih (fun c hc => hlen c (List.mem_cons_of_mem _ hc)) hdisj.of_cons (writeChunk f x)
  | swap x y l =>
    intro hlen hdisj f
    simp only [List.foldl_cons]
    have hyx : rangesDisjoint y x := (List.pairwise_cons.mp hdisj).1 x (List.mem_cons_self _ _)
    have hy : y.data.length = y.chunk_size := hlen y (List.mem_cons_self _ _)
    have hx : x.data.length = x.chunk_size :=
      hlen x (List.mem_cons_of_mem _ (List.mem_cons_self _ _))
    rw [writeChunk_comm f y x hy hx hyx]
  | trans p1 p2 ih1 ih2 =>
    intro hlen hdisj f
    rw [ih1 hlen hdisj f]
    exact ih2 (fun c hc => hlen c (p1.mem_iff.mpr hc))
      ((p1.pairwise_iff fun h => rangesDisjoint_symm h).mp hdisj) f

example : chunksList { start := 0, total := 10, chunk_size := 5 } =
    [{ data := [], start := 0, chunk_size := 5 },
     { data := [], start := 5, chunk_size := 5 }] := by decide

example : chunksList { start := 0, total := 0, chunk_size := 0 } = [] := by decide

example : chunksList { start := 0, total := 10000000, chunk_size := 2500001 } =
    [{ data := [], start := 0, chunk_size := 2500001 },
     { data := [], start := 2500001, chunk_size := 2500001 },
     { data := [], start := 5000002, chunk_size := 2500001 },
     { data := [], start := 7500003, chunk_size := 2499997 }] := by decide

example : Chunks.new true 10000000 4 =
    some { start := 0, total := 10000000, chunk_size := 2500001 } := by decide

example : writeAt [] 2 [7, 8] = [0, 0, 7, 8] := by decide

example : ChunkVec.verify { chunks := [{ data := [], start := 0, chunk_size := 5 },
    { data := [], start := 5, chunk_size := 5 }], total := 10 } =
    Except.error "Incomplete chunk" := by rfl

/-- C1: for every plan built by `Chunks::new` with `workerCount ≥ 1`, exhausting
the iterator yields descriptors sorted by `start`, the first (if any) starting
at 0, each descriptor's `start + chunk_size` equal to the next one's `start`,
the last one's `start + chunk_size` equal to `totalBytes`, and the sizes
summing to `totalBytes`: an exact tiling with no gaps or overlaps. -/
theorem chunks_plan_tiling (accept_ranges : Bool) (total workers : Nat) (hw : 1 ≤ workers)
    (s : Chunks) (hs : Chunks.new accept_ranges total workers = some s) :
    List.Pairwise (fun a b : Chunk => a.start ≤ b.start) (chunksList s) ∧
    (∀ c ∈ (chunksList s).head?, c.start = 0) ∧
    List.Chain' (fun a b : Chunk => a.start + a.chunk_size = b.start) (chunksList s) ∧
    (∀ c ∈ (chunksList s).getLast?, c.start + c.chunk_size = total) ∧
    ((chunksList s).map Chunk.chunk_size).sum = total := by
  obtain ⟨hhead, hchain, hlast, hsum, _⟩ := chunksList_props accept_ranges total workers hw s hs
  refine ⟨?_, hhead, hchain, hlast, hsum⟩
  have hle : List.Chain' (fun a b : Chunk => a.start ≤ b.start) (chunksList s) :=
    hchain.imp fun a b h => by omega
  exact List.chain'_iff_pairwise.mp hle

/-- Witness for C1 at the single-chunk plan of a 10-byte resource. -/
theorem chunks_plan_tiling_witness :
    List.Pairwise (fun a b : Chunk => a.start ≤ b.start) (chunksList ⟨0, 10, 10⟩) ∧
    (∀ c ∈ (chunksList ⟨0, 10, 10⟩).head?, c.start = 0) ∧
    List.Chain' (fun a b : Chunk => a.start + a.chunk_size = b.start) (chunksList ⟨0, 10, 10⟩) ∧
    (∀ c ∈ (chunksList ⟨0, 10, 10⟩).getLast?, c.start + c.chunk_size = 10) ∧
    ((chunksList ⟨0, 10, 10⟩).map Chunk.chunk_size).sum = 10 :=
  chunks_plan_tiling false 10 1 (by decide) ⟨0, 10, 10⟩ (by decide)

/-- C2 counterexample: the target chunk size is not `ceil(totalBytes / workerCount)`.
For `totalBytes = 10000000`, `workerCount = 4` the code picks
`10000000 / 4 + 1 = 2500001`, not `ceil = 2500000`, and the descriptor
sequence is not four chunks of 2500000 at 0, 2500000, 5000000, 7500000. -/
theorem chunk_size_not_ceil :
    Chunks.new true 10000000 4 = some { start := 0, total := 10000000, chunk_size := 2500001 } ∧
    (2500001 : Nat) ≠ (10000000 + 4 - 1) / 4 ∧
    chunksList ⟨0, 10000000, 2500001⟩ ≠
      [{ data := [], start := 0, chunk_size := 2500000 },
       { data := [], start := 2500000, chunk_size := 2500000 },
       { data := [], start := 5000000, chunk_size := 2500000 },
       { data := [], start := 7500000, chunk_size := 2500000 }] := by
  decide

/-- C2 amended: above the 4 MiB threshold with range support the target chunk
size is `totalBytes / workerCount + 1` (floor division plus one); for
`totalBytes = 10000000`, `workerCount = 4` the plan yields four descriptors of
sizes 2500001, 2500001, 2500001, 2499997 at offsets 0, 2500001, 5000002,
7500003. -/
theorem chunk_size_floor_plus_one (total workers : Nat) (hw : 1 ≤ workers) (s : Chunks)
    (hs : Chunks.new true total workers = some s) (ht : 4194304 ≤ total) :
    s.chunk_size = total / workers + 1 ∧
    chunksList ⟨0, 10000000, 2500001⟩ =
      [{ data := [], start := 0, chunk_size := 2500001 },
       { data := [], start := 2500001, chunk_size := 2500001 },
       { data := [], start := 5000002, chunk_size := 2500001 },
       { data := [], start := 7500003, chunk_size := 2499997 }] := by
  refine ⟨?_, by decide⟩
  obtain ⟨_, _, _, _, h5⟩ := Chunks.new_shape true total workers hw s hs
  exact h5 rfl ht

/-- Witness for the amended C2 at `totalBytes = 10000000`, `workerCount = 4`. -/
theorem chunk_size_floor_plus_one_witness :
    (Chunks.mk 0 10000000 2500001).chunk_size = 10000000 / 4 + 1 ∧
    chunksList ⟨0, 10000000, 2500001⟩ =
      [{ data := [], start := 0, chunk_size := 2500001 },
       { data := [], start := 2500001, chunk_size := 2500001 },
       { data := [], start := 5000002, chunk_size := 2500001 },
       { data := [], start := 7500003, chunk_size := 2499997 }] :=
  chunk_size_floor_plus_one 10000000 4 (by decide) ⟨0, 10000000, 2500001⟩ (by decide) (by decide)

/-- C3 counterexample: for `totalBytes = 0` the plan yields no descriptor at
all — the iterator returns `None` immediately — not a single degenerate empty
chunk. -/
theorem zero_total_plan_empty :
    Chunks.new false 0 16 = some { start := 0, total := 0, chunk_size := 0 } ∧
    chunksList ⟨0, 0, 0⟩ = [] ∧
    (chunksList ⟨0, 0, 0⟩).length ≠ 1 := by
  decide

/-- C3 amended: when range support is absent or `totalBytes < 4194304`, the
plan yields exactly one descriptor covering `[0, totalBytes)` whenever
`totalBytes ≥ 1` (for every worker count), and yields no descriptors when
`totalBytes = 0`. -/
theorem single_chunk_plan (accept_ranges : Bool) (total workers : Nat) (s : Chunks)
    (hs : Chunks.new accept_ranges total workers = some s)
    (hcond : accept_ranges = false ∨ total < 4194304) :
    (1 ≤ total → chunksList s = [{ data := [], start := 0, chunk_size := total }]) ∧
    (total = 0 → chunksList s = []) := by
  have hseq : s = ⟨0, total, total⟩ := by
    unfold Chunks.new at hs
    split at hs
    · exact (Option.some_inj.mp hs).symm
    · next hcond2 =>
      exfalso
      simp only [Bool.or_eq_true, Bool.not_eq_true', decide_eq_true_eq, not_or] at hcond2
      obtain ⟨h1, h2⟩ := hcond2
      rcases hcond with h | h
      · exact h1 h
      · omega
  subst hseq
  constructor
  · intro h1
    cases total with
    | zero => omega
    | succ n =>
      have hfuel : chunksList ⟨0, n + 1, n + 1⟩ = chunksFuel (n + 1) ⟨0, n + 1, n + 1⟩ := rfl
      rw [hfuel, chunksFuel_succ n 0 (n + 1) (n + 1) (by omega)]
      simp only [Nat.sub_zero, min_self, Nat.zero_add]
      rw [chunksFuel_nil n ⟨n + 1, n + 1, n + 1⟩ (Nat.le_refl _)]
  · intro h0
    subst h0
    rfl

/-- Witness for the amended C3 at a 1000-byte resource with 16 workers. -/
theorem single_chunk_plan_witness :
    chunksList ⟨0, 1000, 1000⟩ = [{ data := [], start := 0, chunk_size := 1000 }] :=
  (single_chunk_plan false 1000 16 ⟨0, 1000, 1000⟩ (by decide) (Or.inl rfl)).1 (by decide)

/-- C4: `Chunk::download` errors whenever the response body length differs
from the descriptor's `chunk_size`; on success the returned chunk's payload
is exactly the body, its length equals `chunk_size`, and the range is
unchanged — never silently truncated or padded. -/
theorem download_size_check (c : Chunk) (body : Bytes) :
    (body.length ≠ c.chunk_size → ∃ e, Chunk.download c body = Except.error e) ∧
    (∀ c', Chunk.download c body = Except.ok c' →
      c'.data = body ∧ c'.data.length = c'.chunk_size ∧
      c'.start = c.start ∧ c'.chunk_size = c.chunk_size) := by
  by_cases h : body.length = c.chunk_size
  · constructor
    · intro hne
      exact absurd h hne
    · intro c' hc'
      unfold Chunk.download at hc'
      rw [if_neg (by simp [h])] at hc'
      have hc'' : ({ c with data := body } : Chunk) = c' := Except.ok.inj hc'
      subst hc''
      exact ⟨rfl, h, rfl, rfl⟩
  · constructor
    · intro _
      refine ⟨"size mismatch", ?_⟩
      unfold Chunk.download
      rw [if_pos (by simp [h])]
    · intro c' hc'
      unfold Chunk.download at hc'
      rw [if_pos (by simp [h])] at hc'
      exact absurd hc' (by simp)

/-- Witness for C4: a 2-byte body against a 2-byte descriptor succeeds with
the exact payload; the error branch is exercised by the hypothesis form. -/
theorem download_size_check_witness :
    (([7, 8] : Bytes).length ≠ (Chunk.mk [] 3 2).chunk_size →
      ∃ e, Chunk.download ⟨[], 3, 2⟩ [7, 8] = Except.error e) ∧
    (∀ c', Chunk.download ⟨[], 3, 2⟩ [7, 8] = Except.ok c' →
      c'.data = [7, 8] ∧ c'.data.length = c'.chunk_size ∧
      c'.start = (Chunk.mk [] 3 2).start ∧ c'.chunk_size = (Chunk.mk [] 3 2).chunk_size) :=
  download_size_check ⟨[], 3, 2⟩ [7, 8]

/-- C5 counterexample: the plan for a 10-byte resource is two 5-byte chunks;
writing only the second chunk (first chunk deliberately dropped) into an
empty file still produces a 10-byte file, so `Chunks::verify` succeeds, and
likewise after writing a duplicated chunk — contradicting "any deliberately
dropped or duplicated chunk causes verification to fail". -/
theorem verify_misses_dropped_chunk :
    chunksList ⟨0, 10, 5⟩ =
      [{ data := [], start := 0, chunk_size := 5 },
       { data := [], start := 5, chunk_size := 5 }] ∧
    Chunks.verify ⟨0, 10, 5⟩
      (List.foldl writeChunk []
        [{ data := [9, 9, 9, 9, 9], start := 5, chunk_size := 5 }]).length =
      Except.ok () ∧
    Chunks.verify ⟨0, 10, 5⟩
      (List.foldl writeChunk []
        [{ data := [1, 1, 1, 1, 1], start := 0, chunk_size := 5 },
         { data := [9, 9, 9, 9, 9], start := 5, chunk_size := 5 },
         { data := [1, 1, 1, 1, 1], start := 0, chunk_size := 5 }]).length =
      Except.ok () := by
  exact ⟨by decide, rfl, rfl⟩

/-- C5 amended: job-level verification compares the synced on-disk size with
`totalBytes` and fails exactly when they differ; a dropped or duplicated
chunk is caught only if it changes the final file size (it does not when the
missing chunk is interior or the write is a duplicate). -/
theorem verify_size_only (s : Chunks) (n : Nat) :
    ((∃ e, Chunks.verify s n = Except.error e) ↔ n ≠ s.total) ∧
    (Chunks.verify s n = Except.ok () ↔ n = s.total) := by
  unfold Chunks.verify
  by_cases h : n = s.total
  · rw [if_neg (by omega)]
    constructor
    · constructor
      · rintro ⟨e, he⟩
        exact absurd he (by simp)
      · intro hne
        exact absurd h hne
    · exact ⟨fun _ => h, fun _ => rfl⟩
  · rw [if_pos h]
    constructor
    · exact ⟨fun _ => h, fun _ => ⟨"size mismatch", rfl⟩⟩
    · constructor
      · intro he
        exact absurd he (by simp)
      · intro hn
        exact absurd hn h

/-- Witness for the amended C5 at a matching and the concrete sizes 10/10. -/
theorem verify_size_only_witness :
    ((∃ e, Chunks.verify ⟨0, 10, 5⟩ 10 = Except.error e) ↔ (10 : Nat) ≠ 10) ∧
    (Chunks.verify ⟨0, 10, 5⟩ 10 = Except.ok () ↔ (10 : Nat) = 10) :=
  verify_size_only ⟨0, 10, 5⟩ 10

/-- C6: `ChunkVec::verify` errors ("Incomplete chunk") on every non-empty
collection whose smallest start offset is 0 — in particular on every
correctly tiled complete set — returns Ok on the empty collection, and its
dead `last.start + last.chunk_size == total` branch is never consulted:
the function is unchanged when that branch is replaced by `false`. -/
theorem chunkvec_verify_flag_inverted (cv : ChunkVec) :
    ((∃ c ∈ cv.chunks, c.start = 0) → ∃ e, cv.verify = Except.error e) ∧
    (cv.chunks = [] → cv.verify = Except.ok ()) ∧
    cv.verify = cv.verifyNoLastCheck := by
  refine ⟨?_, ?_, ?_⟩
  · rintro ⟨c, hcmem, hc0⟩
    have hmem : c ∈ List.insertionSort (fun a b : Chunk => a.start ≤ b.start) cv.chunks :=
      (List.perm_insertionSort _ _).mem_iff.mpr hcmem
    cases hsort : List.insertionSort (fun a b : Chunk => a.start ≤ b.start) cv.chunks with
    | nil =>
      rw [hsort] at hmem
      cases hmem
    | cons hd tl =>
      have hsorted := List.sorted_insertionSort (fun a b : Chunk => a.start ≤ b.start) cv.chunks
      rw [hsort] at hsorted hmem
      have hhd0 : hd.start = 0 := by
        have hle : hd.start ≤ c.start := by
          rcases List.mem_cons.mp hmem with rfl | hmemtl
          · exact Nat.le_refl _
          · exact (List.sorted_cons.mp hsorted).1 c hmemtl
        omega
      refine ⟨"Incomplete chunk", ?_⟩
      simp only [ChunkVec.verify]
      rw [hsort]
      simp [hhd0]
  · intro hnil
    simp only [ChunkVec.verify]
    rw [hnil]
    rfl
  · cases hsort : List.insertionSort (fun a b : Chunk => a.start ≤ b.start) cv.chunks with
    | nil =>
      simp only [ChunkVec.verify, ChunkVec.verifyNoLastCheck]
      rw [hsort]
      rfl
    | cons hd tl =>
      simp only [ChunkVec.verify, ChunkVec.verifyNoLastCheck]
      rw [hsort]
      rfl

/-- Witness for C6: the correctly tiled complete two-chunk set of a 10-byte
resource is rejected. -/
theorem chunkvec_verify_flag_inverted_witness :
    ∃ e, ChunkVec.verify
      { chunks := [{ data := [], start := 0, chunk_size := 5 },
                   { data := [], start := 5, chunk_size := 5 }], total := 10 } =
      Except.error e :=
  (chunkvec_verify_flag_inverted
    { chunks := [{ data := [], start := 0, chunk_size := 5 },
                 { data := [], start := 5, chunk_size := 5 }], total := 10 }).1
    ⟨{ data := [], start := 0, chunk_size := 5 }, by decide, rfl⟩

/-- C7: chunk writes to pairwise disjoint byte ranges commute — any
permutation of the write order produces a byte-for-byte identical file —
and the descriptors of one plan do have pairwise disjoint ranges. -/
theorem write_order_independence :
    (∀ (f : List Nat) (l1 l2 : List Chunk), l1.Perm l2 →
      (∀ c ∈ l1, c.data.length = c.chunk_size) → l1.Pairwise rangesDisjoint →
      l1.foldl writeChunk f = l2.foldl writeChunk f) ∧
    (∀ (accept_ranges : Bool) (total workers : Nat) (s : Chunks), 1 ≤ workers →
      Chunks.new accept_ranges total workers = some s →
      (chunksList s).Pairwise rangesDisjoint) := by
  constructor
  · intro f l1 l2 hperm hlen hdisj
    exact foldl_writeChunk_perm hperm hlen hdisj f
  · intro ar total workers s hw hs
    obtain ⟨_, hchain, _, _, _⟩ := chunksList_props ar total workers hw s hs
    have h1 : List.Chain' (fun a b : Chunk => a.start + a.chunk_size ≤ b.start) (chunksList s) :=
      hchain.imp fun a b h => by omega
    have h2 := List.chain'_iff_pairwise.mp h1
    exact h2.imp fun h => Or.inl h

/-- Witness for C7: swapping two disjoint writes leaves the file unchanged. -/
theorem write_order_independence_witness :
    List.foldl writeChunk []
      [{ data := [1, 2], start := 0, chunk_size := 2 },
       { data := [3, 4], start := 5, chunk_size := 2 }] =
    List.foldl writeChunk []
      [{ data := [3, 4], start := 5, chunk_size := 2 },
       { data := [1, 2], start := 0, chunk_size := 2 }] :=
  write_order_independence.1 []
    [{ data := [1, 2], start := 0, chunk_size := 2 },
     { data := [3, 4], start := 5, chunk_size := 2 }]
    [{ data := [3, 4], start := 5, chunk_size := 2 },
     { data := [1, 2], start := 0, chunk_size := 2 }]
    (List.Perm.swap _ _ [])
    (by decide) (by decide)

/-- C8: the metadata probe maps a missing or unparseable Content-Length
header to `totalBytes = 0` (which selects the degenerate single-chunk branch
of `Chunks::new`, `chunk_size = total = 0`), and reports range support true
exactly when the Accept-Ranges header is present and equal to "bytes". -/
theorem probe_header_mapping (arh clh : Option String) :
    (clh = none → (Chunks.get_content_length arh clh).2 = 0) ∧
    (∀ v, clh = some v → parseUsize v = none → (Chunks.get_content_length arh clh).2 = 0) ∧
    ((Chunks.get_content_length arh clh).1 = true ↔ arh = some "bytes") ∧
    ((Chunks.get_content_length arh clh).2 = 0 → ∀ workers,
      Chunks.new (Chunks.get_content_length arh clh).1
        (Chunks.get_content_length arh clh).2 workers =
        some { start := 0, total := 0, chunk_size := 0 }) := by
  refine ⟨?_, ?_, ?_, ?_⟩
  · intro h
    subst h
    rfl
  · intro v hv hp
    subst hv
    simp only [Chunks.get_content_length]
    rw [hp]
    rfl
  · cases arh with
    | none => simp [Chunks.get_content_length]
    | some v => simp [Chunks.get_content_length]
  · intro h workers
    rw [h]
    simp [Chunks.new]

/-- Witness for C8: no Content-Length header yields total 0, and an
Accept-Ranges header equal to "bytes" yields range support. -/
theorem probe_header_mapping_witness :
    (Chunks.get_content_length (some "bytes") none).2 = 0 ∧
    (Chunks.get_content_length (some "bytes") none).1 = true ∧
    (Chunks.get_content_length (some "bytes") (some "12x")).2 = 0 :=
  ⟨(probe_header_mapping (some "bytes") none).1 rfl,
   (probe_header_mapping (some "bytes") none).2.2.1.mpr rfl,
   (probe_header_mapping (some "bytes") (some "12x")).2.1 "12x" rfl rfl⟩

/-- C9: for a plan built by `Chunks::new` with `workerCount ≥ 1`,
`chunk_size ≥ 1` whenever `totalBytes ≥ 1`, so the iterator reaches `None`
within `totalBytes` steps: exhausting it with any fuel of at least
`totalBytes` yields the same finite descriptor list, which is recomputed
deterministically from the plain values `(start, total, chunk_size)`. -/
theorem plan_iterator_finite (accept_ranges : Bool) (total workers : Nat) (hw : 1 ≤ workers)
    (s : Chunks) (hs : Chunks.new accept_ranges total workers = some s) :
    (1 ≤ total → 1 ≤ s.chunk_size) ∧
    (∀ fuel1 fuel2, s.total ≤ fuel1 → s.total ≤ fuel2 →
      chunksFuel fuel1 s = chunksFuel fuel2 s) ∧
    (∀ fuel, s.total ≤ fuel → chunksFuel fuel s = chunksList s) := by
  obtain ⟨hstart, htotal, hpos, _, _⟩ := Chunks.new_shape accept_ranges total workers hw s hs
  obtain ⟨st, tt, cs⟩ := s
  simp only at hstart htotal hpos ⊢
  subst hstart
  subst htotal
  by_cases htot : tt = 0
  · subst htot
    refine ⟨fun h => absurd h (by omega), ?_, ?_⟩
    · intro f1 f2 _ _
      rw [chunksFuel_nil f1 ⟨0, 0, cs⟩ (Nat.le_refl 0),
        chunksFuel_nil f2 ⟨0, 0, cs⟩ (Nat.le_refl 0)]
    · intro f _
      rw [chunksFuel_nil f ⟨0, 0, cs⟩ (Nat.le_refl 0)]
      rfl
  · have hc : 1 ≤ cs := hpos (by omega)
    refine ⟨fun _ => hc, ?_, ?_⟩
    · intro f1 f2 h1 h2
      exact chunksFuel_stable f1 f2 0 tt cs hc (by omega) (by omega)
    · intro f hf
      have hlist : chunksList ⟨0, tt, cs⟩ = chunksFuel tt ⟨0, tt, cs⟩ := rfl
      rw [hlist]
      exact chunksFuel_stable f tt 0 tt cs hc (by omega) (by omega)

/-- Witness for C9 at the plan `⟨0, 10, 10⟩` of a 10-byte resource. -/
theorem plan_iterator_finite_witness :
    (1 ≤ 10 → 1 ≤ (Chunks.mk 0 10 10).chunk_size) ∧
    (∀ fuel1 fuel2, (Chunks.mk 0 10 10).total ≤ fuel1 → (Chunks.mk 0 10 10).total ≤ fuel2 →
      chunksFuel fuel1 ⟨0, 10, 10⟩ = chunksFuel fuel2 ⟨0, 10, 10⟩) ∧
    (∀ fuel, (Chunks.mk 0 10 10).total ≤ fuel →
      chunksFuel fuel ⟨0, 10, 10⟩ = chunksList ⟨0, 10, 10⟩) :=
  plan_iterator_finite false 10 1 (by decide) ⟨0, 10, 10⟩ (by decide)

/-- C10: `Chunks::new` divides by the worker count with no guard — with
`workerCount = 0`, range support and `totalBytes ≥ 4194304` the division
panics — while under `workerCount ≥ 1` the plan always exists and every
yielded descriptor has `chunk_size ≥ 1`, so the Range-header arithmetic
`start + chunk_size - 1` never underflows. -/
theorem new_division_guard :
    (∀ total, 4194304 ≤ total → Chunks.new true total 0 = none) ∧
    (∀ accept_ranges total workers, 1 ≤ workers →
      ∃ s, Chunks.new accept_ranges total workers = some s ∧
        ∀ c ∈ chunksList s, 1 ≤ c.chunk_size ∧
          Chunk.rangeHeaderEnd c = some (c.start + c.chunk_size - 1)) := by
  constructor
  · intro total h
    unfold Chunks.new
    rw [if_neg (by simp; omega)]
    rfl
  · intro ar total workers hw
    have hex : ∃ s, Chunks.new ar total workers = some s := by
      unfold Chunks.new
      split
      · exact ⟨_, rfl⟩
      · unfold checkedDiv
        rw [if_neg (by omega)]
        exact ⟨_, rfl⟩
    obtain ⟨s, hs⟩ := hex
    refine ⟨s, hs, ?_⟩
    obtain ⟨_, _, _, _, hall⟩ := chunksList_props ar total workers hw s hs
    intro c hcm
    have h1 := (hall c hcm).1
    refine ⟨h1, ?_⟩
    unfold Chunk.rangeHeaderEnd checkedSub
    rw [if_neg (by omega)]

/-- Witness for C10: at the threshold size with zero workers the plan
construction panics (division by zero), and with one worker it succeeds. -/
theorem new_division_guard_witness :
    Chunks.new true 4194304 0 = none ∧
    (∃ s, Chunks.new true 4194304 1 = some s ∧
      ∀ c ∈ chunksList s, 1 ≤ c.chunk_size ∧
        Chunk.rangeHeaderEnd c = some (c.start + c.chunk_size - 1)) :=
  ⟨new_division_guard.1 4194304 (Nat.le_refl _),
   new_division_guard.2 true 4194304 1 (Nat.le_refl 1)⟩
